import Mathlib

/-!
Knucklebones bot decision engine — formal model.

A shallow embedding of `src/knucklebones-bot.js`: a pure decision engine
that, given the bot's board, the opponent's board, an already-rolled die
value and a difficulty tag, returns the column the bot should play.

Boards are 3 columns of 3 slots; a slot holds a die face (1–6) or is
empty (JS `null`), modelled as `Option Nat`.  JS `Number` arithmetic on
the heuristic and search values is modelled with exact rationals `ℚ`
(all values produced are small sums of integers, halves and sixths).
-/

namespace Knucklebones

/-- A column: an ordered list of slots, each a die face or empty (`none`).
Well-formed columns have exactly `BOT_ROWS` slots. -/
abbrev Col := List (Option Nat)

/-- A board: an ordered list of columns.  Well-formed boards have exactly
`BOT_COLS` columns. -/
abbrev Board := List Col

/-- Source constant `BOT_COLS = 3`. -/
def BOT_COLS : Nat := 3

/-- Source constant `BOT_ROWS = 3`. -/
def BOT_ROWS : Nat := 3

/-- A well-formed board: exactly 3 columns of exactly 3 slots each. -/
def WFBoard (b : Board) : Prop := b.length = 3 ∧ ∀ c ∈ b, c.length = 3

instance (b : Board) : Decidable (WFBoard b) := by
  unfold WFBoard; infer_instance

/-- Source `_availableCols(board)`: indices `0 ≤ i < BOT_COLS` such that
`board[i].some(r => r === null)` — columns that still have an empty slot,
collected in ascending index order. -/
def availableCols (board : Board) : List Nat :=
  (List.range BOT_COLS).filter fun i => (board.getD i []).any fun r => r.isNone

/-- Source `_isBoardFull(board)`: every slot of every column is filled. -/
def isBoardFull (board : Board) : Bool :=
  board.all fun col => col.all fun cell => cell.isSome

/-- Source `_calcColScore(col)`: groups the filled slots by face value; a group of
`n` dice of face `v` is worth `v * n * n`; the column score is the sum over
the groups (the JS `count` object holds each distinct value once). -/
def calcColScore (col : Col) : Nat :=
  let filled := col.filterMap id
  if filled = [] then 0
  else (filled.dedup.map fun v => v * filled.count v * filled.count v).sum

/-- Source `_calcTotalScore(board)`: sum of the column scores. -/
def calcTotalScore (board : Board) : Nat :=
  (board.map calcColScore).sum

/-- Source `_compactCol(col)`: keeps the non-empty slots in order at the front and
pads the remaining of the `BOT_ROWS` slots with `null`
(`col[i] = values[i] ?? null`). -/
def compactCol (col : Col) : Col :=
  let values := col.filterMap id
  (List.range BOT_ROWS).map fun i => values.get? i

/-- The placement step shared by `_simulatePlace` and `_botMedium`'s factor 1:
`slot = col.findIndex(r => r === null); if (slot !== -1) col[slot] = dieValue`
— write the die into the lowest-index empty slot, no change when the column
has none (a JS write at index `-1` adds no element). -/
def placeDie (col : Col) (dieValue : Nat) : Col :=
  match col.findIdx? (fun r => r.isNone) with
  | some slot => col.set slot (some dieValue)
  | none => col

/-- The cancellation step of `_simulatePlace`:
`col.map(d => d === dieValue ? null : d)`. -/
def clearDie (col : Col) (dieValue : Nat) : Col :=
  col.map fun d => if d = some dieValue then none else d

/-- Source `_simulatePlace(boardA, boardB, col, dieValue)`: on a deep copy of
`boardA`, the die is written into the lowest-index empty slot of column
`col`; on a deep copy of `boardB`, every die of the same value in column
`col` is cancelled and the column compacted.  Only the two copies are
touched (the heap-level model below makes the copying explicit). -/
def simulatePlace (boardA boardB : Board) (col dieValue : Nat) : Board × Board :=
  let newA := boardA.set col (placeDie (boardA.getD col []) dieValue)
  let newB := boardB.set col (compactCol (clearDie (boardB.getD col []) dieValue))
  (newA, newB)

/-- The running-best loop body used by `_minimax`'s maximizing branch:
`best = -Infinity; for col of cols: if (val > best) best = val`.
The caller seeds `best` with the value of the first column (which always
beats `-Infinity`). -/
def foldBest (f : Nat → ℚ) : List Nat → ℚ → ℚ
  | [], best => best
  | c :: cs, best => foldBest f cs (if f c > best then f c else best)

/-- The running-worst loop body used by `_minimax`'s minimizing branch:
`worst = Infinity; for col of cols: if (val < worst) worst = val`. -/
def foldWorst (f : Nat → ℚ) : List Nat → ℚ → ℚ
  | [], worst => worst
  | c :: cs, worst => foldWorst f cs (if f c < worst then f c else worst)

/-- The evaluation at the leaves of the search:
`_calcTotalScore(myBoard) - _calcTotalScore(oppBoard)`. -/
def termScore (myBoard oppBoard : Board) : ℚ :=
  (calcTotalScore myBoard : ℚ) - (calcTotalScore oppBoard : ℚ)

/-- Source `_minimax(myBoard, oppBoard, depth, isMaximizing)`.  At depth 0 or on a
full board it returns the score difference.  Otherwise the mover's columns
are enumerated; for each of the six unknown future die faces the loop takes
the running best (maximizing, on `myBoard`) or running worst (minimizing,
on `oppBoard`, with the role-swapped simulation), accumulates the six
per-die values in `totalExpected` and returns `totalExpected / 6`. -/
def minimax : Board → Board → Nat → Bool → ℚ
  | myBoard, oppBoard, 0, _ => termScore myBoard oppBoard
  | myBoard, oppBoard, depth + 1, isMaximizing =>
    if isBoardFull myBoard || isBoardFull oppBoard then termScore myBoard oppBoard
    else if isMaximizing then
      match availableCols myBoard with
      | [] => termScore myBoard oppBoard
      | c :: cs =>
        (((List.range 6).map fun i =>
          let die := i + 1
          let val := fun col =>
            minimax (simulatePlace myBoard oppBoard col die).1
              (simulatePlace myBoard oppBoard col die).2 depth false
          foldBest val cs (val c)).sum) / 6
    else
      match availableCols oppBoard with
      | [] => termScore myBoard oppBoard
      | c :: cs =>
        (((List.range 6).map fun i =>
          let die := i + 1
          let val := fun col =>
            minimax (simulatePlace oppBoard myBoard col die).2
              (simulatePlace oppBoard myBoard col die).1 depth true
          foldWorst val cs (val c)).sum) / 6

/-- The running-argmax loop shared by `_botMedium` and `_botHard`:
`bestCol = available[0]; bestScore = -Infinity; for col of available:
if (score > bestScore) { bestScore = score; bestCol = col }`.
The caller performs the first iteration (which always updates) and hands in
the tail of the list. -/
def pickBestCol (f : Nat → ℚ) : List Nat → Nat → ℚ → Nat
  | [], bestCol, _ => bestCol
  | c :: cs, bestCol, bestScore =>
    if f c > bestScore then pickBestCol f cs c (f c)
    else pickBestCol f cs bestCol bestScore

/-- The per-column heuristic score of `_botMedium`: own score gain of
placing the die (factor 1, weight 1.0), cancellation of equal opponent dice
in the same column (factor 2, weight 1.5), and the multiplier-progress
bonus (factor 3: `+die*4` when two equal dice already sit there, `+die*1`
when one does). -/
def mediumScore (myBoard oppBoard : Board) (dieValue col : Nat) : ℚ :=
  let myCol := myBoard.getD col []
  let simCol := placeDie myCol dieValue
  let gainAfter := calcColScore simCol
  let gainBefore := calcColScore myCol
  let score1 : ℚ := 0 + ((gainAfter : ℚ) - (gainBefore : ℚ)) * 1
  let cancelCount := (oppBoard.getD col []).count (some dieValue)
  let score2 := score1 + (cancelCount : ℚ) * (dieValue : ℚ) * (3 / 2)
  let sameInCol := myCol.count (some dieValue)
  if sameInCol = 2 then score2 + (dieValue : ℚ) * 4
  else if sameInCol = 1 then score2 + (dieValue : ℚ) * 1
  else score2

/-- Source `_botMedium(myBoard, oppBoard, dieValue)`: first-seen argmax of
`mediumScore` over the available columns.  On a full board the JS code
returns `undefined`; the engine's contract excludes that case, modelled
here by an arbitrary `0`. -/
def botMedium (myBoard oppBoard : Board) (dieValue : Nat) : Nat :=
  match availableCols myBoard with
  | [] => 0
  | c :: cs =>
    pickBestCol (mediumScore myBoard oppBoard dieValue) cs c
      (mediumScore myBoard oppBoard dieValue c)

/-- The evaluation `_botHard` gives a candidate column: simulate the bot's
placement there, then run `_minimax` at depth 2 with the opponent to move. -/
def hardScore (myBoard oppBoard : Board) (dieValue col : Nat) : ℚ :=
  minimax (simulatePlace myBoard oppBoard col dieValue).1
    (simulatePlace myBoard oppBoard col dieValue).2 2 false

/-- Source `_botHard(myBoard, oppBoard, dieValue)`: first-seen argmax of
`hardScore` over the available columns (same `undefined` caveat as
`botMedium` on a full board). -/
def botHard (myBoard oppBoard : Board) (dieValue : Nat) : Nat :=
  match availableCols myBoard with
  | [] => 0
  | c :: cs =>
    pickBestCol (hardScore myBoard oppBoard dieValue) cs c
      (hardScore myBoard oppBoard dieValue c)

/-- Source `_botEasy(myBoard)`: `available[Math.floor(Math.random() * available.length)]`.
The random draw is modelled by an injected index `rand`; the game's draw
always satisfies `rand < available.length`. -/
def botEasy (myBoard : Board) (rand : Nat) : Nat :=
  (availableCols myBoard).getD rand 0

/-- Source `botChooseColumn(myBoard, oppBoard, dieValue, difficulty)`: the single
entry point.  The `switch` sends `"easy"` and `"hard"` to their strategies
and everything else — `"medium"` included — to `_botMedium`.  `rand` feeds
the Easy strategy's random draw. -/
def botChooseColumn (myBoard oppBoard : Board) (dieValue : Nat)
    (difficulty : String) (rand : Nat) : Nat :=
  if difficulty = "easy" then botEasy myBoard rand
  else if difficulty = "hard" then botHard myBoard oppBoard dieValue
  else botMedium myBoard oppBoard dieValue

/-! ## Spec-side vocabulary

Definitions used only to state the claims the way the specification words
them (mean over the six die faces, maximum/minimum over a list of values). -/

/-- The six possible faces of the unknown future die. -/
def diceFaces : List Nat := [1, 2, 3, 4, 5, 6]

/-- Arithmetic mean of a list of values. -/
def meanQ (l : List ℚ) : ℚ := l.sum / (l.length : ℚ)

/-- Maximum of a non-empty list of values (`0` on `[]`, never used there). -/
def maxOf : List ℚ → ℚ
  | [] => 0
  | x :: xs => xs.foldl max x

/-- Minimum of a non-empty list of values (`0` on `[]`, never used there). -/
def minOf : List ℚ → ℚ
  | [] => 0
  | x :: xs => xs.foldl min x

/-! ## Helper lemmas -/

theorem foldBest_eq_foldl_max (f : Nat → ℚ) :
    ∀ (l : List Nat) (b : ℚ), foldBest f l b = (l.map f).foldl max b := by
  intro l
  induction l with
  | nil => intro b; rfl
  | cons c cs ih =>
    intro b
    have hstep : (if f c > b then f c else b) = max b (f c) := by
      rcases le_or_lt (f c) b with h | h
      · rw [if_neg (not_lt.mpr h), max_eq_left h]
      · rw [if_pos h, max_eq_right h.le]
    simp only [foldBest, List.map_cons, List.foldl_cons, hstep, ih]

theorem foldWorst_eq_foldl_min (f : Nat → ℚ) :
    ∀ (l : List Nat) (b : ℚ), foldWorst f l b = (l.map f).foldl min b := by
  intro l
  induction l with
  | nil => intro b; rfl
  | cons c cs ih =>
    intro b
    have hstep : (if f c < b then f c else b) = min b (f c) := by
      rcases le_or_lt b (f c) with h | h
      · rw [if_neg (not_lt.mpr h), min_eq_left h]
      · rw [if_pos h, min_eq_right h.le]
    simp only [foldWorst, List.map_cons, List.foldl_cons, hstep, ih]

theorem maxOf_cons_map (v : Nat → ℚ) (c : Nat) (cs : List Nat) :
    maxOf ((c :: cs).map v) = foldBest v cs (v c) := by
  rw [List.map_cons, maxOf, ← foldBest_eq_foldl_max]

theorem minOf_cons_map (v : Nat → ℚ) (c : Nat) (cs : List Nat) :
    minOf ((c :: cs).map v) = foldWorst v cs (v c) := by
  rw [List.map_cons, minOf, ← foldWorst_eq_foldl_min]

theorem meanQ_diceFaces (g : Nat → ℚ) :
    meanQ (diceFaces.map g) = ((List.range 6).map fun i => g (i + 1)).sum / 6 := by
  have h : diceFaces = (List.range 6).map fun i => i + 1 := by decide
  rw [meanQ, h, List.map_map, List.length_map, List.length_range]
  norm_num
  rfl

theorem dedup_map_sum_eq (l : List Nat) (f : Nat → Nat) :
    (l.dedup.map f).sum = ∑ v ∈ l.toFinset, f v := by
  have htf : l.dedup.toFinset = l.toFinset := by
    ext a; simp [List.mem_toFinset, List.mem_dedup]
  rw [← htf, List.sum_toFinset f (List.nodup_dedup l)]

/-! ## Claim theorems -/

/-- C5. `columnScore` is the sum, over the distinct face values `v`
occurring among the non-empty slots with multiplicity `n`, of `v·n²`;
empty slots contribute to no count (an empty slot at the head changes
nothing, and an all-empty column scores 0); `[2,2,empty]` scores 8 and
`[2,2,2]` scores 18; and `totalScore` is the sum of the column scores. -/
theorem calcColScore_spec :
    (∀ col : Col,
      calcColScore col = ∑ v ∈ (col.filterMap id).toFinset,
        v * ((col.filterMap id).count v) ^ 2)
  ∧ (∀ col : Col, calcColScore (none :: col) = calcColScore col)
  ∧ (∀ n : Nat, calcColScore (List.replicate n none) = 0)
  ∧ calcColScore [some 2, some 2, none] = 8
  ∧ calcColScore [some 2, some 2, some 2] = 18
  ∧ (∀ b : Board, calcTotalScore b = (b.map calcColScore).sum) := by
  refine ⟨?_, ?_, ?_, by decide, by decide, fun b => rfl⟩
  · intro col
    rw [calcColScore]
    by_cases hf : col.filterMap id = []
    · simp [hf]
    · rw [if_neg hf, dedup_map_sum_eq]
      congr 1
      funext v
      ring
  · intro col
    rw [calcColScore, calcColScore]
    simp only [List.filterMap_cons_none, id]
  · intro n
    rw [calcColScore]
    have h : (List.replicate n (none : Option Nat)).filterMap id = [] := by
      induction n with
      | zero => rfl
      | succ m ih => rw [List.replicate_succ]; simp only [List.filterMap_cons_none, id, ih]
    simp [h]

/-- C7. Any difficulty tag other than `"easy"` and `"hard"` — arbitrary
unrecognized strings included — selects exactly the Medium strategy: the
entry point returns the same column as with the `"medium"` tag. -/
theorem dispatcher_default_medium (myB oppB : Board) (dieValue rand : Nat)
    (difficulty : String) (h1 : difficulty ≠ "easy") (h2 : difficulty ≠ "hard") :
    botChooseColumn myB oppB dieValue difficulty rand
      = botChooseColumn myB oppB dieValue "medium" rand := by
  rw [botChooseColumn, if_neg h1, if_neg h2,
    botChooseColumn, if_neg (by decide), if_neg (by decide)]

/-- Witness for C7: the unrecognized tag `"expert"` behaves as `"medium"`. -/
theorem dispatcher_default_medium_witness :
    (("expert" : String) ≠ "easy" ∧ ("expert" : String) ≠ "hard")
    ∧ botChooseColumn [[some 3, none, none], [none, none, none], [none, none, none]]
        [[some 3, some 3, none], [none, none, none], [none, none, none]] 3 "expert" 0
      = botChooseColumn [[some 3, none, none], [none, none, none], [none, none, none]]
        [[some 3, some 3, none], [none, none, none], [none, none, none]] 3 "medium" 0 :=
  ⟨⟨by decide, by decide⟩,
    dispatcher_default_medium _ _ 3 0 "expert" (by decide) (by decide)⟩

theorem not_any_isNone (c : Col) :
    ¬(c.any (fun r => r.isNone) = true) ↔ c.all (fun x => x.isSome) = true := by
  rw [List.any_eq_true, List.all_eq_true]
  constructor
  · intro h x hx
    cases x with
    | none => exact absurd ⟨none, hx, rfl⟩ h
    | some v => rfl
  · rintro h ⟨y, hy, hyn⟩
    have hs := h y hy
    rw [Option.isNone_iff_eq_none] at hyn
    subst hyn
    simp at hs

theorem mem_availableCols_iff (b : Board) (i : Nat) :
    i ∈ availableCols b ↔ i < 3 ∧ none ∈ b.getD i [] := by
  rw [availableCols, List.mem_filter, List.mem_range]
  constructor
  · rintro ⟨h1, h2⟩
    refine ⟨h1, ?_⟩
    obtain ⟨x, hx, hxn⟩ := List.any_eq_true.mp h2
    rwa [Option.isNone_iff_eq_none.mp hxn] at hx
  · rintro ⟨h1, h2⟩
    exact ⟨h1, List.any_eq_true.mpr ⟨none, h2, rfl⟩⟩

theorem availableCols_lt (b : Board) {i : Nat} (h : i ∈ availableCols b) : i < 3 :=
  ((mem_availableCols_iff b i).mp h).1

/-- C6. `availableColumns(board)` is exactly the ascending list of the
indices `0 ≤ i < 3` of columns with at least one empty slot: membership is
equivalent to having an empty slot, the indices appear in strictly
ascending order, and (on a well-formed board) the list is empty exactly
when the board is full. -/
theorem availableCols_spec (b : Board) (h : WFBoard b) :
    (∀ i, i ∈ availableCols b ↔ i < 3 ∧ none ∈ b.getD i [])
  ∧ List.Pairwise (· < ·) (availableCols b)
  ∧ (availableCols b = [] ↔ isBoardFull b = true) := by
  refine ⟨mem_availableCols_iff b, ?_, ?_⟩
  · exact List.Pairwise.sublist (List.filter_sublist _) (List.pairwise_lt_range 3)
  · obtain ⟨hlen, -⟩ := h
    match b, hlen with
    | [c0, c1, c2], _ =>
      rw [availableCols, BOT_COLS, List.filter_eq_nil_iff, isBoardFull, List.all_eq_true]
      constructor
      · intro hp c hc
        simp only [List.mem_cons, List.not_mem_nil, or_false] at hc
        rcases hc with rfl | rfl | rfl
        · exact (not_any_isNone c).mp (hp 0 (by decide))
        · exact (not_any_isNone c).mp (hp 1 (by decide))
        · exact (not_any_isNone c).mp (hp 2 (by decide))
      · intro hall i hi
        have hi3 := List.mem_range.mp hi
        interval_cases i
        · exact (not_any_isNone c0).mpr (hall c0 (by simp))
        · exact (not_any_isNone c1).mpr (hall c1 (by simp))
        · exact (not_any_isNone c2).mpr (hall c2 (by simp))

/-- Witness for C6 at a concrete full board. -/
theorem availableCols_spec_witness :
    WFBoard [[some 1, some 2, some 3], [some 4, some 5, some 6], [some 1, some 1, some 1]]
    ∧ ((∀ i, i ∈ availableCols
          [[some 1, some 2, some 3], [some 4, some 5, some 6], [some 1, some 1, some 1]]
        ↔ i < 3 ∧ none ∈ ([[some 1, some 2, some 3], [some 4, some 5, some 6],
            [some 1, some 1, some 1]] : Board).getD i [])
      ∧ List.Pairwise (· < ·) (availableCols
          [[some 1, some 2, some 3], [some 4, some 5, some 6], [some 1, some 1, some 1]])
      ∧ (availableCols [[some 1, some 2, some 3], [some 4, some 5, some 6],
            [some 1, some 1, some 1]] = []
         ↔ isBoardFull [[some 1, some 2, some 3], [some 4, some 5, some 6],
            [some 1, some 1, some 1]] = true)) :=
  ⟨by decide, availableCols_spec _ (by decide)⟩

/-- The running-argmax loop returns the first occurrence of the maximum:
the candidate list `b :: l` splits as `l₁ ++ result :: l₂` where every
element of `l₁` scores strictly below the result and no element at all
scores above it. -/
theorem pickBestCol_spec (f : Nat → ℚ) :
    ∀ (l : List Nat) (b : Nat),
      ∃ l₁ l₂, b :: l = l₁ ++ pickBestCol f l b (f b) :: l₂
        ∧ (∀ y ∈ l₁, f y < f (pickBestCol f l b (f b)))
        ∧ (∀ x ∈ b :: l, f x ≤ f (pickBestCol f l b (f b))) := by
  intro l
  induction l with
  | nil =>
    intro b
    refine ⟨[], [], rfl, by simp, ?_⟩
    intro x hx
    rw [List.mem_singleton.mp hx]
    exact le_refl _
  | cons c cs ih =>
    intro b
    by_cases hc : f c > f b
    · rw [show pickBestCol f (c :: cs) b (f b) = pickBestCol f cs c (f c) from by
        rw [pickBestCol, if_pos hc]]
      obtain ⟨l₁, l₂, hdec, hlt, hle⟩ := ih c
      have hcr : f c ≤ f (pickBestCol f cs c (f c)) := hle c (List.mem_cons_self _ _)
      refine ⟨b :: l₁, l₂, ?_, ?_, ?_⟩
      · rw [List.cons_append, ← hdec]
      · intro y hy
        rcases List.mem_cons.mp hy with rfl | hy
        · exact lt_of_lt_of_le hc hcr
        · exact hlt y hy
      · intro x hx
        rcases List.mem_cons.mp hx with rfl | hx
        · exact le_of_lt (lt_of_lt_of_le hc hcr)
        · exact hle x hx
    · rw [show pickBestCol f (c :: cs) b (f b) = pickBestCol f cs b (f b) from by
        rw [pickBestCol, if_neg hc]]
      have hcb : f c ≤ f b := not_lt.mp hc
      obtain ⟨l₁, l₂, hdec, hlt, hle⟩ := ih b
      have hbr : f b ≤ f (pickBestCol f cs b (f b)) := hle b (List.mem_cons_self _ _)
      cases l₁ with
      | nil =>
        rw [List.nil_append] at hdec
        have hb : b = pickBestCol f cs b (f b) := (List.cons.injEq _ _ _ _).mp hdec |>.1
        have hcs : cs = l₂ := (List.cons.injEq _ _ _ _).mp hdec |>.2
        refine ⟨[], c :: cs, by rw [List.nil_append, ← hb], by simp, ?_⟩
        intro x hx
        rcases List.mem_cons.mp hx with rfl | hx
        · exact hbr
        · rcases List.mem_cons.mp hx with rfl | hx
          · exact le_trans hcb hbr
          · exact hle x (List.mem_cons.mpr (Or.inr hx))
      | cons hd t =>
        rw [List.cons_append] at hdec
        have hb : b = hd := (List.cons.injEq _ _ _ _).mp hdec |>.1
        have hcs : cs = t ++ pickBestCol f cs b (f b) :: l₂ :=
          (List.cons.injEq _ _ _ _).mp hdec |>.2
        have hbl : f b < f (pickBestCol f cs b (f b)) := by
          have hh := hlt hd (List.mem_cons_self _ _)
          rwa [← hb] at hh
        refine ⟨b :: c :: t, l₂, ?_, ?_, ?_⟩
        · rw [List.cons_append, List.cons_append, ← hcs]
        · intro y hy
          rcases List.mem_cons.mp hy with rfl | hy
          · exact hbl
          · rcases List.mem_cons.mp hy with rfl | hy
            · exact lt_of_le_of_lt hcb hbl
            · exact hlt y (List.mem_cons.mpr (Or.inr hy))
        · intro x hx
          rcases List.mem_cons.mp hx with rfl | hx
          · exact hbr
          · rcases List.mem_cons.mp hx with rfl | hx
            · exact le_trans hcb hbr
            · exact hle x (List.mem_cons.mpr (Or.inr hx))

/-- The running-argmax loop only returns one of the candidates. -/
theorem pickBestCol_mem (f : Nat → ℚ) (l : List Nat) (b : Nat) :
    pickBestCol f l b (f b) ∈ b :: l := by
  obtain ⟨l₁, l₂, hdec, -, -⟩ := pickBestCol_spec f l b
  rw [hdec]
  exact List.mem_append.mpr (Or.inr (List.mem_cons_self _ _))

/-- A concrete empty board, used by the witnesses. -/
def emptyBoard : Board := [[none, none, none], [none, none, none], [none, none, none]]

/-- A concrete board with exactly one open column (index 2). -/
def oneOpenBoard : Board :=
  [[some 1, some 1, some 1], [some 2, some 2, some 2], [none, none, none]]

/-- A concrete partially filled opponent board. -/
def sampleOpp : Board := [[some 3, some 3, none], [none, none, none], [none, none, none]]

/-- C2. For every own board with an open column, opponent board and die
in 1..6, the Hard strategy evaluates each available column by simulating the
placement and running the recursive search at depth 2 with the opponent to
move, and returns the first-seen strict argmax of that evaluation: the
available columns split around the returned column so that all earlier ones
score strictly lower and none scores higher. -/
theorem botHard_spec (myB oppB : Board) (dieValue : Nat)
    (hdie : 1 ≤ dieValue ∧ dieValue ≤ 6) (hav : availableCols myB ≠ []) :
    (∀ c, hardScore myB oppB dieValue c
        = minimax (simulatePlace myB oppB c dieValue).1
            (simulatePlace myB oppB c dieValue).2 2 false)
  ∧ ∃ l₁ l₂, availableCols myB = l₁ ++ botHard myB oppB dieValue :: l₂
      ∧ (∀ y ∈ l₁, hardScore myB oppB dieValue y
            < hardScore myB oppB dieValue (botHard myB oppB dieValue))
      ∧ (∀ x ∈ availableCols myB, hardScore myB oppB dieValue x
            ≤ hardScore myB oppB dieValue (botHard myB oppB dieValue)) := by
  refine ⟨fun c => rfl, ?_⟩
  cases h : availableCols myB with
  | nil => exact absurd h hav
  | cons c cs =>
    simp only [botHard, h]
    exact pickBestCol_spec (hardScore myB oppB dieValue) cs c

/-- Witness for C2 on the empty board against a partially filled opponent. -/
theorem botHard_spec_witness :
    ((1 ≤ 5 ∧ 5 ≤ 6) ∧ availableCols emptyBoard ≠ [])
    ∧ ((∀ c, hardScore emptyBoard sampleOpp 5 c
          = minimax (simulatePlace emptyBoard sampleOpp c 5).1
              (simulatePlace emptyBoard sampleOpp c 5).2 2 false)
      ∧ ∃ l₁ l₂, availableCols emptyBoard = l₁ ++ botHard emptyBoard sampleOpp 5 :: l₂
          ∧ (∀ y ∈ l₁, hardScore emptyBoard sampleOpp 5 y
                < hardScore emptyBoard sampleOpp 5 (botHard emptyBoard sampleOpp 5))
          ∧ (∀ x ∈ availableCols emptyBoard, hardScore emptyBoard sampleOpp 5 x
                ≤ hardScore emptyBoard sampleOpp 5 (botHard emptyBoard sampleOpp 5))) :=
  ⟨⟨⟨by decide, by decide⟩, by decide⟩,
    botHard_spec emptyBoard sampleOpp 5 ⟨by decide, by decide⟩ (by decide)⟩

/-- C3. For every own board with an open column, opponent board and die
in 1..6, the Medium strategy scores each available column by
[column score after writing the die into the lowest empty slot of a copy,
minus the column score as-is] + [count of equal opponent dice in the same
column] × die × 1.5 + [die × 4 when exactly two equal dice already sit in
the own column, die × 1 when exactly one, 0 otherwise], and returns the
first-seen strict argmax of that score over the available columns. -/
theorem botMedium_spec (myB oppB : Board) (dieValue : Nat)
    (hdie : 1 ≤ dieValue ∧ dieValue ≤ 6) (hav : availableCols myB ≠ []) :
    (∀ c, mediumScore myB oppB dieValue c
        = ((calcColScore (placeDie (myB.getD c []) dieValue) : ℚ)
            - (calcColScore (myB.getD c []) : ℚ))
          + ((oppB.getD c []).count (some dieValue) : ℚ) * (dieValue : ℚ) * (3 / 2)
          + (if (myB.getD c []).count (some dieValue) = 2 then (dieValue : ℚ) * 4
             else if (myB.getD c []).count (some dieValue) = 1 then (dieValue : ℚ) * 1
             else 0))
  ∧ ∃ l₁ l₂, availableCols myB = l₁ ++ botMedium myB oppB dieValue :: l₂
      ∧ (∀ y ∈ l₁, mediumScore myB oppB dieValue y
            < mediumScore myB oppB dieValue (botMedium myB oppB dieValue))
      ∧ (∀ x ∈ availableCols myB, mediumScore myB oppB dieValue x
            ≤ mediumScore myB oppB dieValue (botMedium myB oppB dieValue)) := by
  constructor
  · intro c
    rw [mediumScore]
    by_cases h2 : (myB.getD c []).count (some dieValue) = 2
    · simp only [h2, if_pos rfl]
      norm_num
    · by_cases h1 : (myB.getD c []).count (some dieValue) = 1
      · simp only [h2, h1, if_neg, if_pos rfl, reduceIte]
        norm_num
      · simp only [h2, h1, reduceIte]
        norm_num
  · cases h : availableCols myB with
    | nil => exact absurd h hav
    | cons c cs =>
      simp only [botMedium, h]
      exact pickBestCol_spec (mediumScore myB oppB dieValue) cs c

/-- Witness for C3 on the empty board against a partially filled opponent. -/
theorem botMedium_spec_witness :
    ((1 ≤ 3 ∧ 3 ≤ 6) ∧ availableCols emptyBoard ≠ [])
    ∧ ((∀ c, mediumScore emptyBoard sampleOpp 3 c
          = ((calcColScore (placeDie (emptyBoard.getD c []) 3) : ℚ)
              - (calcColScore (emptyBoard.getD c []) : ℚ))
            + ((sampleOpp.getD c []).count (some 3) : ℚ) * (3 : ℚ) * (3 / 2)
            + (if (emptyBoard.getD c []).count (some 3) = 2 then (3 : ℚ) * 4
               else if (emptyBoard.getD c []).count (some 3) = 1 then (3 : ℚ) * 1
               else 0))
      ∧ ∃ l₁ l₂, availableCols emptyBoard = l₁ ++ botMedium emptyBoard sampleOpp 3 :: l₂
          ∧ (∀ y ∈ l₁, mediumScore emptyBoard sampleOpp 3 y
                < mediumScore emptyBoard sampleOpp 3 (botMedium emptyBoard sampleOpp 3))
          ∧ (∀ x ∈ availableCols emptyBoard, mediumScore emptyBoard sampleOpp 3 x
                ≤ mediumScore emptyBoard sampleOpp 3 (botMedium emptyBoard sampleOpp 3))) :=
  ⟨⟨⟨by decide, by decide⟩, by decide⟩,
    botMedium_spec emptyBoard sampleOpp 3 ⟨by decide, by decide⟩ (by decide)⟩

/-- C8. The entry point, at every difficulty and for every outcome of
the Easy strategy's random draw, returns a column index below 3 that is an
open column of the own board; when exactly one column is open, every
difficulty returns it. -/
theorem chooseColumn_spec (myB oppB : Board) (dieValue : Nat) (difficulty : String)
    (rand : Nat) (hdie : 1 ≤ dieValue ∧ dieValue ≤ 6)
    (hav : availableCols myB ≠ []) (hrand : rand < (availableCols myB).length) :
    botChooseColumn myB oppB dieValue difficulty rand ∈ availableCols myB
  ∧ botChooseColumn myB oppB dieValue difficulty rand < 3
  ∧ (∀ c, availableCols myB = [c]
      → botChooseColumn myB oppB dieValue difficulty rand = c) := by
  have hmem : botChooseColumn myB oppB dieValue difficulty rand ∈ availableCols myB := by
    rw [botChooseColumn]
    split_ifs with h1 h2
    · rw [botEasy, List.getD_eq_getElem _ _ hrand]
      exact List.getElem_mem hrand
    · cases h : availableCols myB with
      | nil => exact absurd h hav
      | cons c cs =>
        simp only [botHard, h]
        exact pickBestCol_mem (hardScore myB oppB dieValue) cs c
    · cases h : availableCols myB with
      | nil => exact absurd h hav
      | cons c cs =>
        simp only [botMedium, h]
        exact pickBestCol_mem (mediumScore myB oppB dieValue) cs c
  refine ⟨hmem, availableCols_lt _ hmem, ?_⟩
  intro c hc
  rw [hc] at hmem
  exact List.mem_singleton.mp hmem

/-- Witness for C8: the Hard strategy on a board with a single open column. -/
theorem chooseColumn_spec_witness :
    ((1 ≤ 4 ∧ 4 ≤ 6) ∧ availableCols oneOpenBoard ≠ []
      ∧ 0 < (availableCols oneOpenBoard).length)
    ∧ (botChooseColumn oneOpenBoard sampleOpp 4 "hard" 0 ∈ availableCols oneOpenBoard
      ∧ botChooseColumn oneOpenBoard sampleOpp 4 "hard" 0 < 3
      ∧ (∀ c, availableCols oneOpenBoard = [c]
          → botChooseColumn oneOpenBoard sampleOpp 4 "hard" 0 = c)) :=
  ⟨⟨⟨by decide, by decide⟩, by decide, by decide⟩,
    chooseColumn_spec oneOpenBoard sampleOpp 4 "hard" 0
      ⟨by decide, by decide⟩ (by decide) (by decide)⟩

/-- C1. The Hard-strategy recursive search satisfies the expectimax
recurrence: at depth 0 or with either board full, the total-score
difference; at a maximizing level with open columns, the arithmetic mean
over the six die faces 1..6 of the maximum over available columns of the
depth−1 minimizing value of the simulated placement; at a minimizing level,
the mean of the per-die minima over the opponent's columns of the depth−1
maximizing value of the role-swapped simulation; and the terminal formula
when the mover has no open column.  Each per-level value is the mean of the
six per-die best/worst values — not their sum or maximum. -/
theorem minimax_expectimax_spec (myB oppB : Board) (d : Nat) (maxi : Bool) :
    minimax myB oppB 0 maxi = termScore myB oppB
  ∧ minimax myB oppB (d + 1) maxi =
      (if isBoardFull myB || isBoardFull oppB then termScore myB oppB
       else if maxi then
         (if availableCols myB = [] then termScore myB oppB
          else meanQ (diceFaces.map fun die =>
            maxOf ((availableCols myB).map fun c =>
              minimax (simulatePlace myB oppB c die).1
                (simulatePlace myB oppB c die).2 d false)))
       else
         (if availableCols oppB = [] then termScore myB oppB
          else meanQ (diceFaces.map fun die =>
            minOf ((availableCols oppB).map fun c =>
              minimax (simulatePlace oppB myB c die).2
                (simulatePlace oppB myB c die).1 d true)))) := by
  constructor
  · rw [minimax]
  · rw [minimax]
    by_cases hfull : isBoardFull myB || isBoardFull oppB
    · rw [if_pos hfull, if_pos hfull]
    · rw [if_neg hfull, if_neg hfull]
      cases maxi with
      | true =>
        rw [if_pos rfl, if_pos rfl]
        split
        next heq => rw [if_pos heq]
        next c cs heq =>
          rw [heq, if_neg (by simp), meanQ_diceFaces]
          congr 1
          exact congrArg List.sum
            (List.map_congr_left fun i _ => (maxOf_cons_map _ c cs).symm)
      | false =>
        rw [if_neg (by simp), if_neg (by simp)]
        split
        next heq => rw [if_pos heq]
        next c cs heq =>
          rw [heq, if_neg (by simp), meanQ_diceFaces]
          congr 1
          exact congrArg List.sum
            (List.map_congr_left fun i _ => (minOf_cons_map _ c cs).symm)

theorem range_map_get? (v : List Nat) :
    ∀ n, v.length ≤ n →
      (List.range n).map (fun i => v.get? i)
        = v.map some ++ List.replicate (n - v.length) none := by
  induction v with
  | nil =>
    intro n _
    have hconst : ((List.range n).map fun i => ([] : List Nat).get? i)
        = (List.range n).map (Function.const Nat none) :=
      List.map_congr_left fun i _ => rfl
    rw [hconst, List.map_const, List.length_range]
    simp
  | cons x xs ih =>
    intro n hn
    match n, hn with
    | m + 1, hn =>
      have hm : xs.length ≤ m := by
        simp only [List.length_cons] at hn
        omega
      rw [List.range_succ_eq_map, List.map_cons, List.map_map]
      have hcomp : ((fun i => (x :: xs).get? i) ∘ Nat.succ) = fun i => xs.get? i := by
        funext i
        rfl
      rw [hcomp, ih m hm]
      simp only [List.map_cons, List.cons_append, List.length_cons,
        Nat.succ_sub_succ]
      rfl

/-- Lemma: `_compactCol` on a column of at most 3 filled slots: the filled values,
in order, shifted to the front, padded to 3 slots with empties. -/
theorem compactCol_eq (c : Col) (h : (c.filterMap id).length ≤ 3) :
    compactCol c = ((c.filterMap id).map some)
      ++ List.replicate (3 - (c.filterMap id).length) none := by
  rw [compactCol]
  exact range_map_get? (c.filterMap id) 3 h

/-- Lemma: `placeDie` writes into the lowest-index empty slot: either the column
has no empty slot and is returned unchanged, or there is a lowest index `i`
holding an empty slot (all lower slots filled) and `placeDie` sets slot `i`
to the die. -/
theorem placeDie_spec (c : Col) (d : Nat) :
    (none ∉ c ∧ placeDie c d = c)
    ∨ (∃ i, i < c.length ∧ c.getD i (some 0) = none
        ∧ (∀ j, j < i → c.getD j none ≠ none)
        ∧ placeDie c d = c.set i (some d)) := by
  rw [placeDie]
  cases hf : c.findIdx? (fun r => r.isNone) with
  | none =>
    left
    refine ⟨?_, rfl⟩
    intro hmem
    have hfalse := (List.findIdx?_eq_none_iff.mp hf) none hmem
    simp at hfalse
  | some i =>
    right
    obtain ⟨hlen, hidx⟩ := List.findIdx?_eq_some_iff_findIdx_eq.mp hf
    have hw : List.findIdx (fun r => r.isNone) c < c.length := by
      rw [hidx]; exact hlen
    refine ⟨i, hlen, ?_, ?_, rfl⟩
    · rw [List.getD_eq_getElem _ _ hlen]
      have hp := @List.findIdx_getElem _ (fun r : Option Nat => r.isNone) c hw
      simp only [hidx] at hp
      exact Option.isNone_iff_eq_none.mp hp
    · intro j hj
      have hjlen : j < c.length := lt_trans hj hlen
      rw [List.getD_eq_getElem?_getD, List.getElem?_eq_getElem hjlen]
      have hp := @List.not_of_lt_findIdx _ (fun r : Option Nat => r.isNone) c j
        (by rw [hidx]; exact hj)
      simp only [Option.getD_some]
      intro hcj
      rw [hcj] at hp
      simp at hp

/-- The cancellation map slot by slot: a slot equal to the die becomes
empty, every other slot is unchanged. -/
theorem clearDie_getD (c : Col) (d : Nat) (i : Nat) :
    (clearDie c d).getD i none
      = if c.getD i none = some d then none else c.getD i none := by
  rw [clearDie, List.getD_eq_getElem?_getD, List.getD_eq_getElem?_getD,
    List.getElem?_map]
  cases getElem? c i with
  | none => simp
  | some x => simp

/-- On a well-formed board, the column read at an index below 3 has
exactly 3 slots. -/
theorem getD_col_length (b : Board) (h : WFBoard b) {col : Nat} (hcol : col < 3) :
    (b.getD col []).length = 3 := by
  have h3 : col < b.length := by rw [h.1]; exact hcol
  rw [List.getD_eq_getElem _ _ h3]
  exact h.2 _ (List.getElem_mem h3)

/-- C4. `simulatePlacement(boardA, boardB, col, dieValue)` returns, in
one step, the copy of `boardA` with the die written into the lowest-index
empty slot of column `col` (unchanged when that column has no empty slot),
and the copy of `boardB` whose column `col` has every slot equal to the die
cleared to empty and is then compacted (filled slots shifted to the front
in order, empties at the back). -/
theorem simulatePlace_spec (bA bB : Board) (col dieValue : Nat)
    (hA : WFBoard bA) (hB : WFBoard bB) (hcol : col < 3) :
    (simulatePlace bA bB col dieValue).1
      = bA.set col (placeDie (bA.getD col []) dieValue)
  ∧ (simulatePlace bA bB col dieValue).2
      = bB.set col (compactCol (clearDie (bB.getD col []) dieValue))
  ∧ ((none ∉ bA.getD col [] ∧ placeDie (bA.getD col []) dieValue = bA.getD col [])
     ∨ (∃ i, i < (bA.getD col []).length
          ∧ (bA.getD col []).getD i (some 0) = none
          ∧ (∀ j, j < i → (bA.getD col []).getD j none ≠ none)
          ∧ placeDie (bA.getD col []) dieValue
              = (bA.getD col []).set i (some dieValue)))
  ∧ ((clearDie (bB.getD col []) dieValue).length = (bB.getD col []).length
      ∧ ∀ i, (clearDie (bB.getD col []) dieValue).getD i none
          = if (bB.getD col []).getD i none = some dieValue then none
            else (bB.getD col []).getD i none)
  ∧ compactCol (clearDie (bB.getD col []) dieValue)
      = ((clearDie (bB.getD col []) dieValue).filterMap id).map some
        ++ List.replicate
            (3 - ((clearDie (bB.getD col []) dieValue).filterMap id).length) none := by
  refine ⟨rfl, rfl, placeDie_spec _ _,
    ⟨List.length_map _ _, fun i => clearDie_getD _ _ i⟩, ?_⟩
  · apply compactCol_eq
    calc ((clearDie (bB.getD col []) dieValue).filterMap id).length
        ≤ (clearDie (bB.getD col []) dieValue).length :=
          List.length_filterMap_le _ _
      _ = (bB.getD col []).length := List.length_map _ _
      _ = 3 := getD_col_length bB hB hcol
      _ ≤ 3 := le_refl 3

/-- Witness for C4 on concrete boards. -/
theorem simulatePlace_spec_witness :
    (WFBoard oneOpenBoard ∧ WFBoard sampleOpp ∧ 0 < 3)
    ∧ ((simulatePlace oneOpenBoard sampleOpp 0 3).1
        = oneOpenBoard.set 0 (placeDie (oneOpenBoard.getD 0 []) 3)
      ∧ (simulatePlace oneOpenBoard sampleOpp 0 3).2
        = sampleOpp.set 0 (compactCol (clearDie (sampleOpp.getD 0 []) 3))
      ∧ ((none ∉ oneOpenBoard.getD 0 []
            ∧ placeDie (oneOpenBoard.getD 0 []) 3 = oneOpenBoard.getD 0 [])
        ∨ (∃ i, i < (oneOpenBoard.getD 0 []).length
            ∧ (oneOpenBoard.getD 0 []).getD i (some 0) = none
            ∧ (∀ j, j < i → (oneOpenBoard.getD 0 []).getD j none ≠ none)
            ∧ placeDie (oneOpenBoard.getD 0 []) 3
                = (oneOpenBoard.getD 0 []).set i (some 3)))
      ∧ ((clearDie (sampleOpp.getD 0 []) 3).length = (sampleOpp.getD 0 []).length
          ∧ ∀ i, (clearDie (sampleOpp.getD 0 []) 3).getD i none
              = if (sampleOpp.getD 0 []).getD i none = some 3 then none
                else (sampleOpp.getD 0 []).getD i none)
      ∧ compactCol (clearDie (sampleOpp.getD 0 []) 3)
          = ((clearDie (sampleOpp.getD 0 []) 3).filterMap id).map some
            ++ List.replicate
                (3 - ((clearDie (sampleOpp.getD 0 []) 3).filterMap id).length) none) :=
  ⟨⟨by decide, by decide, by decide⟩,
    simulatePlace_spec oneOpenBoard sampleOpp 0 3 (by decide) (by decide) (by decide)⟩

/-- A compact column: no empty slot sits below a filled slot — once an
empty slot appears, everything after it is empty. -/
def isCompactCol : Col → Bool
  | [] => true
  | none :: rest => rest.all fun s => s.isNone
  | some _ :: rest => isCompactCol rest

theorem allNone_isCompact (c : Col) (h : c.all (fun s => s.isNone) = true) :
    isCompactCol c = true := by
  induction c with
  | nil => rfl
  | cons x rest ih =>
    rw [List.all_cons, Bool.and_eq_true] at h
    cases x with
    | none => rw [isCompactCol]; exact h.2
    | some v => simp at h

theorem placeDie_eq_of_findIdx (c : Col) (d i : Nat)
    (h : c.findIdx? (fun r => r.isNone) = some i) :
    placeDie c d = c.set i (some d) := by
  rw [placeDie, h]

theorem placeDie_eq_of_findIdx_none (c : Col) (d : Nat)
    (h : c.findIdx? (fun r => r.isNone) = none) :
    placeDie c d = c := by
  rw [placeDie, h]

theorem placeDie_isCompact (c : Col) (d : Nat) (h : isCompactCol c = true) :
    isCompactCol (placeDie c d) = true := by
  induction c with
  | nil => exact h
  | cons x rest ih =>
    cases x with
    | none =>
      have hf : ((none :: rest : Col).findIdx? fun r => r.isNone) = some 0 := by
        rw [List.findIdx?_cons]
        simp
      rw [placeDie_eq_of_findIdx _ d 0 hf]
      show isCompactCol (some d :: rest) = true
      have hall : rest.all (fun s => s.isNone) = true := h
      show isCompactCol rest = true
      exact allNone_isCompact rest hall
    | some v =>
      have hrest : isCompactCol rest = true := h
      cases hf : rest.findIdx? (fun r => r.isNone) with
      | none =>
        have hfc : ((some v :: rest : Col).findIdx? fun r => r.isNone) = none := by
          rw [List.findIdx?_cons, if_neg (by simp), List.findIdx?_succ, hf]
          rfl
        rw [placeDie_eq_of_findIdx_none _ d hfc]
        exact h
      | some i =>
        have hfc : ((some v :: rest : Col).findIdx? fun r => r.isNone)
            = some (i + 1) := by
          rw [List.findIdx?_cons, if_neg (by simp), List.findIdx?_succ, hf]
          rfl
        rw [placeDie_eq_of_findIdx _ d (i + 1) hfc, List.set_cons_succ]
        show isCompactCol (rest.set i (some d)) = true
        rw [← placeDie_eq_of_findIdx rest d i hf]
        exact ih hrest

theorem mapSome_append_replicate_isCompact (v : List Nat) (k : Nat) :
    isCompactCol (v.map some ++ List.replicate k none) = true := by
  induction v with
  | nil =>
    simp only [List.map_nil, List.nil_append]
    apply allNone_isCompact
    rw [List.all_eq_true]
    intro x hx
    rw [List.eq_of_mem_replicate hx]
    rfl
  | cons x xs ih =>
    simp only [List.map_cons, List.cons_append]
    show isCompactCol (xs.map some ++ List.replicate k none) = true
    exact ih

theorem compactCol_isCompact (c : Col) (h : (c.filterMap id).length ≤ 3) :
    isCompactCol (compactCol c) = true := by
  rw [compactCol_eq c h]
  exact mapSome_append_replicate_isCompact _ _

theorem getD_set_ne_board (l : Board) (i j : Nat) (x : Col) (h : i ≠ j) :
    (l.set i x).getD j [] = l.getD j [] := by
  rw [List.getD_eq_getElem?_getD, List.getD_eq_getElem?_getD, List.getElem?_set_ne h]

/-- C10. On well-formed boards with all columns compact,
`simulatePlacement` keeps every column of both returned boards compact, and
every column other than the chosen one is value-equal to the corresponding
input column in both returned boards. -/
theorem simulatePlace_invariants (bA bB : Board) (col dieValue : Nat)
    (hA : WFBoard bA) (hB : WFBoard bB)
    (hcA : ∀ c ∈ bA, isCompactCol c = true)
    (hcB : ∀ c ∈ bB, isCompactCol c = true)
    (hcol : col < 3) :
    (∀ c ∈ (simulatePlace bA bB col dieValue).1, isCompactCol c = true)
  ∧ (∀ c ∈ (simulatePlace bA bB col dieValue).2, isCompactCol c = true)
  ∧ (∀ j, j < 3 → j ≠ col →
      (simulatePlace bA bB col dieValue).1.getD j [] = bA.getD j []
      ∧ (simulatePlace bA bB col dieValue).2.getD j [] = bB.getD j []) := by
  refine ⟨?_, ?_, ?_⟩
  · intro c hc
    rcases List.mem_or_eq_of_mem_set hc with hmem | rfl
    · exact hcA c hmem
    · apply placeDie_isCompact
      have h3 : col < bA.length := by rw [hA.1]; exact hcol
      rw [List.getD_eq_getElem _ _ h3]
      exact hcA _ (List.getElem_mem h3)
  · intro c hc
    rcases List.mem_or_eq_of_mem_set hc with hmem | rfl
    · exact hcB c hmem
    · apply compactCol_isCompact
      calc ((clearDie (bB.getD col []) dieValue).filterMap id).length
          ≤ (clearDie (bB.getD col []) dieValue).length :=
            List.length_filterMap_le _ _
        _ = (bB.getD col []).length := List.length_map _ _
        _ = 3 := getD_col_length bB hB hcol
  · intro j hj3 hjne
    exact ⟨getD_set_ne_board bA col j _ (Ne.symm hjne),
      getD_set_ne_board bB col j _ (Ne.symm hjne)⟩

/-- Witness for C10 on concrete compact boards. -/
theorem simulatePlace_invariants_witness :
    (WFBoard oneOpenBoard ∧ WFBoard sampleOpp
      ∧ (∀ c ∈ oneOpenBoard, isCompactCol c = true)
      ∧ (∀ c ∈ sampleOpp, isCompactCol c = true)
      ∧ 0 < 3)
    ∧ ((∀ c ∈ (simulatePlace oneOpenBoard sampleOpp 0 3).1, isCompactCol c = true)
      ∧ (∀ c ∈ (simulatePlace oneOpenBoard sampleOpp 0 3).2, isCompactCol c = true)
      ∧ (∀ j, j < 3 → j ≠ 0 →
          (simulatePlace oneOpenBoard sampleOpp 0 3).1.getD j []
              = oneOpenBoard.getD j []
          ∧ (simulatePlace oneOpenBoard sampleOpp 0 3).2.getD j []
              = sampleOpp.getD j [])) :=
  ⟨⟨by decide, by decide, by decide, by decide, by decide⟩,
    simulatePlace_invariants oneOpenBoard sampleOpp 0 3
      (by decide) (by decide) (by decide) (by decide) (by decide)⟩

/-! ## Reference-level model of the mutation behaviour

JS arrays have identity: to settle the no-mutation claim, the column
arrays live in a store (a list of cells, a cell's address is its index)
and a board handle is the list of addresses of its column arrays.  The
reference-level functions mirror `_simulatePlace` and `_botMedium`'s
factor-1 copy statement by statement, making every allocation and every
write explicit. -/

/-- Dereference a board handle into a board value. -/
def readBoard (st : List Col) (addrs : List Nat) : Board :=
  addrs.map fun a => st.getD a []

/-- Source `_simulatePlace` at the reference level.
`const newA = boardA.map(c => [...c])` allocates one fresh cell per column
(the spread copies the contents); likewise `newB`; the write
`newA[col][slot] = dieValue` hits only the fresh cell of column `col`
(`placeDie`, which also covers the `slot === -1` no-op); the statement
`newB[col] = newB[col].map(...)` allocates another fresh cell and repoints
the fresh outer array; `_compactCol(newB[col])` then mutates that same
fresh cell in place.  Returns the final store and the two result handles. -/
def simulatePlaceRef (st : List Col) (addrsA addrsB : List Nat)
    (col dieValue : Nat) : (List Col) × List Nat × List Nat :=
  let n := st.length
  let st1 := st ++ readBoard st addrsA
  let newA := (List.range addrsA.length).map fun i => n + i
  let st2 := st1 ++ readBoard st addrsB
  let newB := (List.range addrsB.length).map fun i => st1.length + i
  let aAddr := newA.getD col 0
  let st3 := st2.set aAddr (placeDie (st2.getD aAddr []) dieValue)
  let bAddr := newB.getD col 0
  let st4 := st3 ++ [clearDie (st3.getD bAddr []) dieValue]
  let newBres := newB.set col st3.length
  let st5 := st4.set st3.length (compactCol (st4.getD st3.length []))
  (st5, newA, newBres)

/-- The Medium strategy's factor-1 copy at the reference level:
`const simCol = [...myBoard[col]]` allocates a fresh cell holding the
column's contents, and `simCol[emptySlot] = dieValue` writes only that
fresh cell. -/
def mediumCopyRef (st : List Col) (addrs : List Nat) (col dieValue : Nat) :
    (List Col) × Nat :=
  let c := st.getD (addrs.getD col 0) []
  let st1 := st ++ [c]
  let a := st.length
  let st2 := st1.set a (placeDie c dieValue)
  (st2, a)

theorem getD_set_ne' {α : Type} (l : List α) (i j : Nat) (x d : α) (h : i ≠ j) :
    (l.set i x).getD j d = l.getD j d := by
  rw [List.getD_eq_getElem?_getD, List.getD_eq_getElem?_getD, List.getElem?_set_ne h]

theorem getD_set_eq' {α : Type} (l : List α) (i : Nat) (x d : α) (h : i < l.length) :
    (l.set i x).getD i d = x := by
  rw [List.getD_eq_getElem?_getD, List.getElem?_set_self h]
  rfl

theorem getD_append_add' {α : Type} (l₁ l₂ : List α) (i : Nat) (d : α) :
    (l₁ ++ l₂).getD (l₁.length + i) d = l₂.getD i d := by
  rw [List.getD_append_right _ _ _ _ (Nat.le_add_right _ _), Nat.add_sub_cancel_left]

theorem getD_append_snoc {α : Type} (l₁ : List α) (x d : α) :
    (l₁ ++ [x]).getD l₁.length d = x := by
  have h := getD_append_add' l₁ [x] 0 d
  rw [Nat.add_zero] at h
  rw [h]
  rfl

theorem getD_range_map_add (m k j : Nat) (h : j < k) :
    (((List.range k).map fun i => m + i).getD j 0) = m + j := by
  rw [List.getD_eq_getElem _ _ (by simpa using h)]
  simp

theorem getD_readBoard (st : List Col) (addrs : List Nat) (j : Nat)
    (h : j < addrs.length) :
    (readBoard st addrs).getD j [] = st.getD (addrs.getD j 0) [] := by
  rw [readBoard, List.getD_eq_getElem _ _ (by simpa using h), List.getElem_map,
    List.getD_eq_getElem _ _ h]

/-- C9. At the reference level, `simulatePlacement` never mutates its
input boards: every store cell that existed before the call is unchanged,
so the input handles dereference to exactly the boards they held before;
the two returned handles consist only of freshly allocated cells (they
share no structure with the inputs); and reading the returned handles out
of the final store yields exactly the pure simulation of the input board
values.  The Medium strategy's per-column placement copy likewise writes
only a fresh cell. -/
theorem simulatePlace_no_mutation (st : List Col) (addrsA addrsB : List Nat)
    (col dieValue : Nat)
    (hA : ∀ a ∈ addrsA, a < st.length) (hB : ∀ a ∈ addrsB, a < st.length)
    (hlA : addrsA.length = 3) (hlB : addrsB.length = 3) (hcol : col < 3) :
    (∀ a, a < st.length →
      (simulatePlaceRef st addrsA addrsB col dieValue).1.getD a [] = st.getD a [])
  ∧ readBoard (simulatePlaceRef st addrsA addrsB col dieValue).1 addrsA
      = readBoard st addrsA
  ∧ readBoard (simulatePlaceRef st addrsA addrsB col dieValue).1 addrsB
      = readBoard st addrsB
  ∧ (∀ a ∈ (simulatePlaceRef st addrsA addrsB col dieValue).2.1, st.length ≤ a)
  ∧ (∀ a ∈ (simulatePlaceRef st addrsA addrsB col dieValue).2.2, st.length ≤ a)
  ∧ (readBoard (simulatePlaceRef st addrsA addrsB col dieValue).1
        (simulatePlaceRef st addrsA addrsB col dieValue).2.1,
     readBoard (simulatePlaceRef st addrsA addrsB col dieValue).1
        (simulatePlaceRef st addrsA addrsB col dieValue).2.2)
      = simulatePlace (readBoard st addrsA) (readBoard st addrsB) col dieValue
  ∧ (∀ a, a < st.length →
      (mediumCopyRef st addrsA col dieValue).1.getD a [] = st.getD a [])
  ∧ st.length ≤ (mediumCopyRef st addrsA col dieValue).2
  ∧ (mediumCopyRef st addrsA col dieValue).1.getD
        (mediumCopyRef st addrsA col dieValue).2 []
      = placeDie ((readBoard st addrsA).getD col []) dieValue := by
  set n := st.length with hn
  set Av := readBoard st addrsA with hAv
  set Bv := readBoard st addrsB with hBv
  have hAvlen : Av.length = 3 := by rw [hAv, readBoard, List.length_map, hlA]
  have hBvlen : Bv.length = 3 := by rw [hBv, readBoard, List.length_map, hlB]
  set st1 := st ++ Av with hst1
  have hst1len : st1.length = n + 3 := by
    rw [hst1, List.length_append, hAvlen, ← hn]
  set newA := (List.range addrsA.length).map (fun i => n + i) with hnewA
  set st2 := st1 ++ Bv with hst2
  have hst2len : st2.length = n + 6 := by
    rw [hst2, List.length_append, hst1len, hBvlen]
  set newB := (List.range addrsB.length).map (fun i => st1.length + i) with hnewB
  set aAddr := newA.getD col 0 with haAddr
  have haA : aAddr = n + col := by
    rw [haAddr, hnewA, hlA]
    exact getD_range_map_add n 3 col hcol
  set st3 := st2.set aAddr (placeDie (st2.getD aAddr []) dieValue) with hst3
  have hst3len : st3.length = n + 6 := by rw [hst3, List.length_set, hst2len]
  set bAddr := newB.getD col 0 with hbAddr
  have hbA : bAddr = n + 3 + col := by
    rw [hbAddr, hnewB, hlB, getD_range_map_add st1.length 3 col hcol, hst1len]
  set st4 := st3 ++ [clearDie (st3.getD bAddr []) dieValue] with hst4
  have hst4len : st4.length = n + 7 := by
    rw [hst4, List.length_append, hst3len]
    rfl
  set newBres := newB.set col st3.length with hnewBres
  set st5 := st4.set st3.length (compactCol (st4.getD st3.length [])) with hst5
  have hframe : ∀ a, a < n → st5.getD a [] = st.getD a [] := by
    intro a ha
    rw [hst5, getD_set_ne' _ _ _ _ _ (by omega),
      hst4, List.getD_append _ _ _ _ (by omega),
      hst3, getD_set_ne' _ _ _ _ _ (by omega),
      hst2, List.getD_append _ _ _ _ (by omega),
      hst1, List.getD_append _ _ _ _ (by omega)]
  have hinputA : readBoard st5 addrsA = Av := by
    rw [hAv, readBoard, readBoard]
    apply List.map_congr_left
    intro a ha
    exact hframe a (by have := hA a ha; omega)
  have hinputB : readBoard st5 addrsB = Bv := by
    rw [hBv, readBoard, readBoard]
    apply List.map_congr_left
    intro a ha
    exact hframe a (by have := hB a ha; omega)
  have hfreshA : ∀ a ∈ newA, n ≤ a := by
    intro a ha
    rw [hnewA] at ha
    obtain ⟨i, hi, hEq⟩ := List.mem_map.mp ha
    omega
  have hfreshB : ∀ a ∈ newBres, n ≤ a := by
    intro a ha
    rw [hnewBres] at ha
    rcases List.mem_or_eq_of_mem_set ha with hmem | rfl
    · rw [hnewB] at hmem
      obtain ⟨i, hi, hEq⟩ := List.mem_map.mp hmem
      omega
    · omega
  have hreadA : readBoard st5 newA
      = Av.set col (placeDie (Av.getD col []) dieValue) := by
    have hlenL : (readBoard st5 newA).length = 3 := by
      rw [readBoard, List.length_map, hnewA, List.length_map, List.length_range, hlA]
    have hlenR : (Av.set col (placeDie (Av.getD col []) dieValue)).length = 3 := by
      rw [List.length_set, hAvlen]
    have key : ∀ i, i < 3 →
        (readBoard st5 newA).getD i []
          = (Av.set col (placeDie (Av.getD col []) dieValue)).getD i [] := by
      intro i hi
      rw [getD_readBoard st5 newA i
        (by rw [hnewA, List.length_map, List.length_range, hlA]; exact hi)]
      have hai : newA.getD i 0 = n + i := by
        rw [hnewA, hlA]
        exact getD_range_map_add n 3 i hi
      rw [hai]
      by_cases hic : i = col
      · subst hic
        rw [hst5, getD_set_ne' _ _ _ _ _ (by omega),
          hst4, List.getD_append _ _ _ _ (by omega),
          hst3, haA, getD_set_eq' _ _ _ _ (by omega),
          hst2, List.getD_append _ _ _ _ (by omega),
          hst1, hn, getD_append_add',
          getD_set_eq' _ _ _ _ (by omega)]
      · rw [hst5, getD_set_ne' _ _ _ _ _ (by omega),
          hst4, List.getD_append _ _ _ _ (by omega),
          hst3, haA, getD_set_ne' _ _ _ _ _ (by omega),
          hst2, List.getD_append _ _ _ _ (by omega),
          hst1, hn, getD_append_add',
          getD_set_ne' _ _ _ _ _ (Ne.symm hic)]
    apply List.ext_getElem (by rw [hlenL, hlenR])
    intro i h1 h2
    have hk := key i (by rw [hlenL] at h1; exact h1)
    rw [List.getD_eq_getElem _ _ h1, List.getD_eq_getElem _ _ h2] at hk
    exact hk
  have hreadB : readBoard st5 newBres
      = Bv.set col (compactCol (clearDie (Bv.getD col []) dieValue)) := by
    have hlenL : (readBoard st5 newBres).length = 3 := by
      rw [readBoard, List.length_map, hnewBres, List.length_set, hnewB,
        List.length_map, List.length_range, hlB]
    have hlenR : (Bv.set col (compactCol (clearDie (Bv.getD col []) dieValue))).length
        = 3 := by
      rw [List.length_set, hBvlen]
    have key : ∀ i, i < 3 →
        (readBoard st5 newBres).getD i []
          = (Bv.set col (compactCol (clearDie (Bv.getD col []) dieValue))).getD i [] := by
      intro i hi
      rw [getD_readBoard st5 newBres i
        (by rw [hnewBres, List.length_set, hnewB, List.length_map,
          List.length_range, hlB]; exact hi)]
      by_cases hic : i = col
      · subst hic
        have hbi : newBres.getD i 0 = st3.length := by
          rw [hnewBres]
          exact getD_set_eq' _ _ _ _
            (by rw [hnewB, List.length_map, List.length_range, hlB]; exact hcol)
        rw [hbi, hst5, getD_set_eq' _ _ _ _ (by omega),
          hst4, getD_append_snoc, hst3, haA, hbA,
          getD_set_ne' _ _ _ _ _ (by omega),
          hst2, show n + 3 + i = st1.length + i from by omega,
          getD_append_add', getD_set_eq' _ _ _ _ (by omega)]
      · have hbi : newBres.getD i 0 = st1.length + i := by
          rw [hnewBres, getD_set_ne' _ _ _ _ _ (Ne.symm hic), hnewB, hlB]
          exact getD_range_map_add st1.length 3 i hi
        rw [hbi, hst5, getD_set_ne' _ _ _ _ _ (by omega),
          hst4, List.getD_append _ _ _ _ (by omega),
          hst3, haA, getD_set_ne' _ _ _ _ _ (by omega),
          hst2, getD_append_add',
          getD_set_ne' _ _ _ _ _ (Ne.symm hic)]
    apply List.ext_getElem (by rw [hlenL, hlenR])
    intro i h1 h2
    have hk := key i (by rw [hlenL] at h1; exact h1)
    rw [List.getD_eq_getElem _ _ h1, List.getD_eq_getElem _ _ h2] at hk
    exact hk
  have hpair : (readBoard st5 newA, readBoard st5 newBres)
      = simulatePlace Av Bv col dieValue := by
    show (readBoard st5 newA, readBoard st5 newBres)
        = (Av.set col (placeDie (Av.getD col []) dieValue),
           Bv.set col (compactCol (clearDie (Bv.getD col []) dieValue)))
    rw [hreadA, hreadB]
  have hmc : mediumCopyRef st addrsA col dieValue
      = ((st ++ [st.getD (addrsA.getD col 0) []]).set st.length
          (placeDie (st.getD (addrsA.getD col 0) []) dieValue), st.length) := rfl
  have hmframe : ∀ a, a < n →
      (mediumCopyRef st addrsA col dieValue).1.getD a [] = st.getD a [] := by
    intro a ha
    simp only [hmc]
    rw [getD_set_ne' _ _ _ _ _ (by omega), List.getD_append _ _ _ _ (by omega)]
  have hmfresh : n ≤ (mediumCopyRef st addrsA col dieValue).2 := by
    simp only [hmc]
    omega
  have hmval : (mediumCopyRef st addrsA col dieValue).1.getD
        (mediumCopyRef st addrsA col dieValue).2 []
      = placeDie ((readBoard st addrsA).getD col []) dieValue := by
    simp only [hmc]
    rw [getD_set_eq' _ _ _ _
        (by rw [List.length_append, List.length_singleton]; omega),
      getD_readBoard st addrsA col (by omega)]
  exact ⟨hframe, hinputA, hinputB, hfreshA, hfreshB, hpair, hmframe, hmfresh, hmval⟩

/-- A concrete six-cell store for the C9 witness: cells 0–2 hold the own
board's columns, cells 3–5 the opponent's. -/
def sampleStore : List Col :=
  [[some 1, none, none], [none, none, none], [none, none, none],
   [some 5, some 5, none], [none, none, none], [none, none, none]]

/-- Witness for C9 on a concrete store and handles. -/
theorem simulatePlace_no_mutation_witness :
    ((∀ a ∈ [0, 1, 2], a < sampleStore.length)
      ∧ (∀ a ∈ [3, 4, 5], a < sampleStore.length)
      ∧ ([0, 1, 2] : List Nat).length = 3 ∧ ([3, 4, 5] : List Nat).length = 3
      ∧ 0 < 3)
    ∧ ((∀ a, a < sampleStore.length →
          (simulatePlaceRef sampleStore [0, 1, 2] [3, 4, 5] 0 5).1.getD a []
            = sampleStore.getD a [])
      ∧ readBoard (simulatePlaceRef sampleStore [0, 1, 2] [3, 4, 5] 0 5).1 [0, 1, 2]
          = readBoard sampleStore [0, 1, 2]
      ∧ readBoard (simulatePlaceRef sampleStore [0, 1, 2] [3, 4, 5] 0 5).1 [3, 4, 5]
          = readBoard sampleStore [3, 4, 5]
      ∧ (∀ a ∈ (simulatePlaceRef sampleStore [0, 1, 2] [3, 4, 5] 0 5).2.1,
          sampleStore.length ≤ a)
      ∧ (∀ a ∈ (simulatePlaceRef sampleStore [0, 1, 2] [3, 4, 5] 0 5).2.2,
          sampleStore.length ≤ a)
      ∧ (readBoard (simulatePlaceRef sampleStore [0, 1, 2] [3, 4, 5] 0 5).1
            (simulatePlaceRef sampleStore [0, 1, 2] [3, 4, 5] 0 5).2.1,
         readBoard (simulatePlaceRef sampleStore [0, 1, 2] [3, 4, 5] 0 5).1
            (simulatePlaceRef sampleStore [0, 1, 2] [3, 4, 5] 0 5).2.2)
          = simulatePlace (readBoard sampleStore [0, 1, 2])
              (readBoard sampleStore [3, 4, 5]) 0 5
      ∧ (∀ a, a < sampleStore.length →
          (mediumCopyRef sampleStore [0, 1, 2] 0 5).1.getD a []
            = sampleStore.getD a [])
      ∧ sampleStore.length ≤ (mediumCopyRef sampleStore [0, 1, 2] 0 5).2
      ∧ (mediumCopyRef sampleStore [0, 1, 2] 0 5).1.getD
            (mediumCopyRef sampleStore [0, 1, 2] 0 5).2 []
          = placeDie ((readBoard sampleStore [0, 1, 2]).getD 0 []) 5) :=
  ⟨⟨by decide, by decide, by decide, by decide, by decide⟩,
    simulatePlace_no_mutation sampleStore [0, 1, 2] [3, 4, 5] 0 5
      (by decide) (by decide) (by decide) (by decide) (by decide)⟩

end Knucklebones
